import Mathlib

/-!
Verification of the flow-reader RSVP engine.

Shallow embedding of the core of the repository:
  * `cleanText`, `tokenize`, `calculateDelay`, `getORPIndex` from the RSVP
    engine module (src/unnamed/part_001),
  * the playback scheduler hook `useRSVP` (same file) as an explicit state
    machine with an event log,
  * the windowed paragraph synchronization of `ScrollReader`
    (src/components/ReaderView.tsx).

JavaScript numbers are modelled with `Nat`/`Int`/`Rat`: every constant of the
delay model is an exact decimal, and the two floors that the code takes
(`Math.floor(len * 0.3)` and `Math.floor(progress * length)`) agree with the
rational floors on the inputs the claims quantify over.
-/

/-- The single-quote character, written by code point. -/
def quoteChar : Char := Char.ofNat 39

/-- JavaScript's whitespace class for regexes: the set matched by a backslash-s
atom, used because `tokenize` splits on runs of it (WHITESPACE_SPLIT, line 6 of
the engine). -/
def isWs (c : Char) : Bool :=
  c.toNat == 0x20 || c.toNat == 0x09 || c.toNat == 0x0a || c.toNat == 0x0d ||
  c.toNat == 0x0b || c.toNat == 0x0c ||
  c.toNat == 0xa0 || c.toNat == 0x1680 ||
  (decide (0x2000 ≤ c.toNat) && decide (c.toNat ≤ 0x200a)) ||
  c.toNat == 0x2028 || c.toNat == 0x2029 ||
  c.toNat == 0x202f || c.toNat == 0x205f ||
  c.toNat == 0x3000 || c.toNat == 0xfeff

/-- The characters padded into standalone tokens (PUNCTUATION_PADDING, line 5):
em dash, en dash, ellipsis. -/
def isPad (c : Char) : Bool :=
  c == '—' || c == '–' || c == '…'

/-- cleanText (engine lines 15-19): `text.replace(/[—–]/g, m => m === '—' ? '—' : '–')`,
with the empty-string guard. -/
def cleanText (s : String) : String :=
  if s.data = [] then String.mk []
  else String.mk (s.data.map (fun c =>
    if c == '—' || c == '–' then (if c == '—' then '—' else '–') else c))

/-- Newline flattening (engine line 29): `.replace(/\n/g, ' ')`. -/
def nl2sp (c : Char) : Char := if c = '\n' then ' ' else c

/-- Punctuation padding (engine line 30): `.replace(/([—–…])/g, ' $1 ')`. -/
def padChar (c : Char) : List Char := if isPad c then [' ', c, ' '] else [c]

/-- The string `tokenize` splits: newlines flattened, pad characters padded. -/
def preprocess (l : List Char) : List Char := (l.map nl2sp).flatMap padChar

/-- Dropping a longest matching run never lengthens a list. -/
theorem dropWhile_length_le {α : Type} (p : α → Bool) (l : List α) :
    (l.dropWhile p).length ≤ l.length := by
  induction l with
  | nil => simp
  | cons c cs ih =>
    rw [List.dropWhile_cons]
    split
    · exact Nat.le_succ_of_le ih
    · simp

/-- Splitting on runs of whitespace and discarding empty pieces
(engine lines 34-44): the maximal runs of non-whitespace characters. -/
def wsplit : List Char → List (List Char)
  | [] => []
  | c :: cs =>
    if isWs c then wsplit cs
    else (c :: cs.takeWhile (fun d => !isWs d)) :: wsplit (cs.dropWhile (fun d => !isWs d))
termination_by l => l.length
decreasing_by
  · simp only [List.length_cons]; omega
  · simp only [List.length_cons]
    exact Nat.lt_succ_of_le (dropWhile_length_le _ _)

/-- tokenize (engine lines 21-47): empty-string guard, preprocess, split, filter. -/
def tokenize (s : String) : List String :=
  if s.data = [] then [] else (wsplit (preprocess s.data)).map String.mk

/-- Modelled from the spec: `joinWithSpace` from the testable property
"tokenize(joinWithSpace(tokenize(text))) == tokenize(text)"; it joins tokens
with single spaces, as `tokens.join(' ')` does in ReaderView.tsx line 197. -/
def joinSp : List (List Char) → List Char
  | [] => []
  | [t] => t
  | t :: ts => t ++ ' ' :: joinSp ts

/-- The string form of `joinSp`. -/
def joinWithSpace (ts : List String) : String := String.mk (joinSp (ts.map String.data))

/-- STRIP_PUNCTUATION (line 7): the class removed before measuring length. -/
def stripPunct (c : Char) : Bool :=
  c == '.' || c == ',' || c == '!' || c == '?' || c == ';' || c == ':' ||
  c == '"' || c == quoteChar || c == '(' || c == ')' || c == '«' || c == '»'

/-- A token ends with a character of `cls`, optionally followed by one double
or single quote: the shape of STRONG_TERMINATORS and PAUSE_DELIMITERS. -/
def endsClsQuote (cls : Char → Bool) (w : List Char) : Bool :=
  match w.reverse with
  | [] => false
  | c :: rest =>
    if c == '"' || c == quoteChar then
      match rest with
      | [] => false
      | d :: _ => cls d
    else cls c

/-- STRONG_TERMINATORS (line 8) tested at the end of the word. -/
def isStrongTerm (w : List Char) : Bool :=
  endsClsQuote (fun c => c == '.' || c == '?' || c == '!') w

/-- PAUSE_DELIMITERS (line 9) tested at the end of the word. -/
def isPauseDelim (w : List Char) : Bool :=
  endsClsQuote (fun c => c == ',' || c == ':' || c == ';') w

/-- MINOR_BREAKS (line 10): a closing parenthesis or double quote at the end. -/
def isMinorBreak (w : List Char) : Bool :=
  match w.reverse with
  | [] => false
  | c :: _ => c == ')' || c == '"'

/-- NUMERIC_CHECK (line 11): the word contains a decimal digit. -/
def hasDigit (w : List Char) : Bool :=
  w.any (fun c => decide ('0' ≤ c) && decide (c ≤ '9'))

/-- `Math.min` on rationals. -/
def jsMin (a b : ℚ) : ℚ := if a ≤ b then a else b

/-- `Math.max` on rationals. -/
def jsMax (a b : ℚ) : ℚ := if a ≤ b then b else a

/-- calculateDelay (engine lines 49-82), over exact rationals. -/
def calculateDelay (word : String) (wpm : ℚ) : ℚ :=
  let baseDelay : ℚ := 60000 / wpm
  let len := (word.data.filter (fun c => !stripPunct c)).length
  let lengthFactor : ℚ :=
    if len < 2 then 0.6
    else if len < 4 then 0.85
    else if len < 9 then 1.0
    else if len < 14 then 1.2
    else 1.5
  let punctuationFactor : ℚ :=
    if isStrongTerm word.data then 2.8
    else if isPauseDelim word.data || word == "—" || word == "–" then 2.0
    else if isMinorBreak word.data || word == "…" then 1.4
    else 1.0
  let lengthFactor2 : ℚ := if hasDigit word.data then lengthFactor * 1.3 else lengthFactor
  jsMin (jsMax (baseDelay * lengthFactor2 * punctuationFactor) 50) 3000

/-- The bracket and quote characters of group 1 of the ORP regex (line 85). -/
def isOrpOpen (c : Char) : Bool :=
  c == '«' || c == '"' || c == quoteChar || c == '(' || c == '[' || c == '{'

/-- The punctuation and quote characters of group 3 of the ORP regex. -/
def isOrpClose (c : Char) : Bool :=
  c == '.' || c == ',' || c == '!' || c == '?' || c == ';' || c == ':' ||
  c == '»' || c == '"' || c == quoteChar || c == ')' || c == ']' || c == '}'

/-- A JavaScript line terminator: the dot of the ORP regex matches none of
these, so a word containing one fails the anchored match entirely. -/
def isLineTerm (c : Char) : Bool :=
  c.toNat == 0x0a || c.toNat == 0x0d || c.toNat == 0x2028 || c.toNat == 0x2029

/-- Group 2 of the ORP regex: what is left after the maximal run of opening
characters is taken from the front and the maximal run of closing characters
from the back (greedy group 1, lazy group 2, anchored group 3). -/
def strippedCore (w : List Char) : List Char :=
  (((w.dropWhile isOrpOpen).reverse).dropWhile isOrpClose).reverse

/-- getORPIndex (engine lines 84-97). `Math.floor(len * 0.3)` agrees with
`len * 3 / 10` in natural division for every length a JavaScript string can
have. -/
def getORPIndex (s : String) : ℕ :=
  let w := s.data
  if w.any isLineTerm then w.length * 3 / 10
  else
    let lead := w.takeWhile isOrpOpen
    let core := strippedCore w
    if core.length = 0 then 0 else lead.length + core.length * 3 / 10

/-- An observable callback of the scheduler: `onProgress(i)` or `onComplete()`. -/
inductive Ev where
  | progress (i : ℕ)
  | complete
deriving DecidableEq

/-- The scheduler's state: the hook's two state variables (`index`,
`isPlaying`), the word stream, the `timerRef` cell, plus the runtime's view of
timers: `pending` is the list of armed, not yet fired, not yet cancelled
timeout handles, and `nextId` numbers the handles `window.setTimeout` hands
out. -/
structure Sched where
  words : List String
  index : ℕ
  isPlaying : Bool
  timerRef : Option ℕ
  pending : List ℕ
  nextId : ℕ
deriving DecidableEq

/-- A fresh session (useRSVP lines 110-115): stopped at the caller-supplied
initial index, no timer. -/
def initSched (ws : List String) (i : ℕ) : Sched :=
  ⟨ws, i, false, none, [], 0⟩

/-- `clearTimeout(timerRef.current)`: the stored handle, if any, will never
fire. -/
def clearStored (s : Sched) : Sched :=
  { s with pending := match s.timerRef with
      | none => s.pending
      | some id => s.pending.filter (fun j => j != id) }

/-- The timer effect's body (lines 163-171): when playing and in range, arm one
timeout and store its handle in `timerRef`. -/
def armTimer (s : Sched) : Sched :=
  if s.isPlaying ∧ s.index < s.words.length then
    { s with timerRef := some s.nextId, pending := s.pending ++ [s.nextId],
             nextId := s.nextId + 1 }
  else s

/-- One run of the timer effect: its cleanup (lines 173-175) clears the stored
handle, then the body re-arms. -/
def runEffect (s : Sched) : Sched := armTimer (clearStored s)

/-- React re-runs the effect only when a dependency changed; of the
dependency list `[isPlaying, index, words, tick, wpm]` only `index` and
`isPlaying` vary inside a session. -/
def effectAfter (old new : Sched) : Sched :=
  if old.index = new.index ∧ old.isPlaying = new.isPlaying then new
  else runEffect new

/-- stop (lines 136-142): clear the stored timer, null the ref, set Stopped. -/
def stopStep (s : Sched) : Sched × List Ev :=
  let s1 := { clearStored s with timerRef := none, isPlaying := false }
  (effectAfter s s1, [])

/-- The body of tick (lines 144-161), run when an armed timeout fires:
advance, report progress at the advanced index, and on reaching the stream
length stop, complete and keep the previous index. -/
def tickBody (s : Sched) : Sched × List Ev :=
  let next := s.index + 1
  if s.words.length ≤ next then
    ({ clearStored s with timerRef := none, isPlaying := false },
     [Ev.progress next, Ev.complete])
  else
    ({ s with index := next }, [Ev.progress next])

/-- A timeout with handle `id` comes due: it only runs if it was never
cancelled, removes itself from the pending set, runs `tick`, and the effect
re-runs on the state it changed. -/
def fireStep (s : Sched) (id : ℕ) : Sched × List Ev :=
  if id ∈ s.pending then
    let s0 := { s with pending := s.pending.filter (fun j => j != id) }
    let r := tickBody s0
    (effectAfter s0 r.1, r.2)
  else (s, [])

/-- togglePlay (lines 178-185): at or past the last index restart from 0 and
play, otherwise flip `isPlaying`. -/
def togglePlayStep (s : Sched) : Sched × List Ev :=
  let s1 := if (s.words.length : ℤ) - 1 ≤ (s.index : ℤ)
            then { s with index := 0, isPlaying := true }
            else { s with isPlaying := !s.isPlaying }
  (effectAfter s s1, [])

/-- seek (lines 187-192): clamp to `[0, length-1]`, set the index, report
progress at the clamped index. -/
def seekStep (s : Sched) (n : ℤ) : Sched × List Ev :=
  let clamped : ℤ := max 0 (min n ((s.words.length : ℤ) - 1))
  let s1 := { s with index := clamped.toNat }
  (effectAfter s s1, [Ev.progress clamped.toNat])

/-- The operations a session can experience: the three exposed calls and a
timeout coming due. -/
inductive Op where
  | togglePlay
  | seek (n : ℤ)
  | stop
  | fire (id : ℕ)

/-- Run one operation. -/
def runOp (s : Sched) : Op → Sched × List Ev
  | Op.togglePlay => togglePlayStep s
  | Op.seek n => seekStep s n
  | Op.stop => stopStep s
  | Op.fire id => fireStep s id

/-- Run a sequence of operations, concatenating the emitted callbacks. -/
def runOps (s : Sched) : List Op → Sched × List Ev
  | [] => (s, [])
  | op :: ops =>
    let r := runOp s op
    let r2 := runOps r.1 ops
    (r2.1, r.2 ++ r2.2)

/-- ReaderView lines 204-205: the initial index restored from a stored
progress fraction, `Math.floor(book.progress * flatWords.length) || 0`. -/
def savedIdx (progress : ℚ) (len : ℕ) : ℤ := Int.floor (progress * len)

/-- A session opened on word stream `ws` at stored progress fraction `p`
(nonnegative fractions only: the floor is then nonnegative). -/
def openSession (ws : List String) (p : ℚ) : Sched :=
  initSched ws (savedIdx p ws.length).toNat

/-- The index invariant of the claim: inside `[0, length-1]`, or 0 on an
empty stream. -/
def InBounds (s : Sched) : Prop :=
  (s.words = [] ∧ s.index = 0) ∨ s.index < s.words.length

/-- The paragraph metadata ReaderView derives per chunk (lines 22-27 and
192-201). -/
structure ParagraphData where
  text : String
  startIndex : ℕ
  wordCount : ℕ
  words : List String
deriving DecidableEq

/-- A paragraph's token range `[startIndex, startIndex + wordCount)` contains
the current index (the predicate of ReaderView lines 49-51). -/
def inRange (p : ParagraphData) (ci : ℕ) : Bool :=
  decide (p.startIndex ≤ ci) && decide (ci < p.startIndex + p.wordCount)

/-- JavaScript's `Array.prototype.findIndex`: first matching index, `-1` when
none matches. -/
def findIndexJs {α : Type} (pred : α → Bool) : List α → ℤ
  | [] => -1
  | a :: l =>
    if pred a then 0
    else
      let r := findIndexJs pred l
      if r = -1 then -1 else r + 1

/-- `activeParagraphIndex` (ReaderView lines 48-52). -/
def activeParagraphIndex (ps : List ParagraphData) (ci : ℕ) : ℤ :=
  findIndexJs (fun p => inRange p ci) ps

/-- `anchorIndex` (line 54): paragraph 0 when no range contains the index. -/
def anchorIndex (ps : List ParagraphData) (ci : ℕ) : ℕ :=
  let a := activeParagraphIndex ps ci
  if a = -1 then 0 else a.toNat

/-- `startIndex` of the window (line 55): `Math.max(0, anchor - 40)`. -/
def winStart (ps : List ParagraphData) (ci : ℕ) : ℕ :=
  anchorIndex ps ci - 40

/-- `endIndex` of the window (line 56): `Math.min(length, anchor + 41)`. -/
def winEnd (ps : List ParagraphData) (ci : ℕ) : ℕ :=
  min ps.length (anchorIndex ps ci + 41)

/-- `visibleParagraphs` (line 57): `paragraphs.slice(startIndex, endIndex)`. -/
def visibleParagraphs (ps : List ParagraphData) (ci : ℕ) : List ParagraphData :=
  (ps.drop (winStart ps ci)).take (winEnd ps ci - winStart ps ci)

/-! Small arithmetic and list helpers. -/

theorem mul3_div10_le (n : ℕ) : n * 3 / 10 ≤ n := by
  calc n * 3 / 10 ≤ n * 3 / 3 := Nat.div_le_div_left (by norm_num) (by norm_num)
  _ = n := Nat.mul_div_cancel n (by norm_num)

theorem calcDelay_clamp (x : ℚ) :
    50 ≤ jsMin (jsMax x 50) 3000 ∧ jsMin (jsMax x 50) 3000 ≤ 3000 := by
  simp only [jsMin, jsMax]
  by_cases hc : x ≤ 50
  · rw [if_pos hc, if_pos (show (50:ℚ) ≤ 3000 by norm_num)]
    norm_num
  · rw [if_neg hc]
    have h50 : (50:ℚ) < x := lt_of_not_le hc
    by_cases hd : x ≤ 3000
    · rw [if_pos hd]
      exact ⟨le_of_lt h50, hd⟩
    · rw [if_neg hd]
      norm_num

/-- Shared evaluation: the delay of "great!" at 300 wpm. -/
theorem calcDelay_great_eval : calculateDelay "great!" 300 = 560 := by
  have h1 : ("great!".data.filter (fun c => !stripPunct c)).length = 5 := by decide
  have h2 : isStrongTerm "great!".data = true := by decide
  have h3 : hasDigit "great!".data = false := by decide
  simp only [calculateDelay, h1, h2, h3]
  norm_num [jsMin, jsMax]

/-- C2: the claim computes `200 × 0.85 × 2.8 = 476`, but the stripped core
"great" has length 5, which falls in the `< 9` bracket of the code (factor
1.0), not the `< 4` bracket (factor 0.85): the code returns 560. -/
theorem calculateDelay_great_counterexample : calculateDelay "great!" 300 ≠ 476 := by
  rw [calcDelay_great_eval]; norm_num

/-- C2 amended: `calculateDelay("great!", 300)` is 560 ms: base 200 ms × length
factor 1.0 (stripped core "great", length 5, bracket `< 9`) × punctuation
factor 2.8 (sentence terminator). -/
theorem calculateDelay_great_amended : calculateDelay "great!" 300 = 560 :=
  calcDelay_great_eval

/-- C6: for every token and every wpm in [100, 1000] the delay is clamped into
[50, 3000] milliseconds. -/
theorem calculateDelay_bounds (w : String) (wpm : ℚ)
    (h1 : 100 ≤ wpm) (h2 : wpm ≤ 1000) :
    50 ≤ calculateDelay w wpm ∧ calculateDelay w wpm ≤ 3000 :=
  calcDelay_clamp _

/-- C6 witness: the bounds at the concrete token "great!" and 300 wpm. -/
theorem calculateDelay_bounds_witness :
    (100 : ℚ) ≤ 300 ∧ (300 : ℚ) ≤ 1000 ∧
    50 ≤ calculateDelay "great!" 300 ∧ calculateDelay "great!" 300 ≤ 3000 :=
  ⟨by norm_num, by norm_num,
   (calculateDelay_bounds "great!" 300 (by norm_num) (by norm_num)).1,
   (calculateDelay_bounds "great!" 300 (by norm_num) (by norm_num)).2⟩

/-- C10: the dash-normalization pre-pass does not normalize any exotic dash.
Its regex class `[—–]` holds only the two canonical dashes and the replacer
maps each to itself, so `cleanText` is the identity; the horizontal bar U+2015
— an exotic dash variant — passes through unchanged, although the function's
own comment says it normalizes exotic dashes to the standard ones. -/
theorem cleanText_exotic_dash :
    cleanText (String.mk [Char.ofNat 0x2015]) = String.mk [Char.ofNat 0x2015] ∧
    Char.ofNat 0x2015 ≠ '—' ∧ Char.ofNat 0x2015 ≠ '–' := by decide

/-- cleanText is the identity on every input. -/
theorem cleanText_eq_id (s : String) : cleanText s = s := by
  have hmap : ∀ c : Char,
      (if c = '—' ∨ c = '–' then (if c = '—' then '—' else '–') else c) = c := by
    intro c
    by_cases h1 : c = '—'
    · simp [h1]
    · by_cases h2 : c = '–' <;> simp [h1, h2]
  cases s with
  | mk data =>
    cases data with
    | nil => rfl
    | cons c cs => simp [cleanText, hmap]

/-- C8: the optimal recognition point of every token lies inside the token,
the empty token maps to 0, and so does every token whose stripped core is
empty. -/
theorem getORPIndex_bounds :
    (∀ t : String, getORPIndex t ≤ t.length) ∧
    getORPIndex "" = 0 ∧
    (∀ t : String, t.data.any isLineTerm = false → strippedCore t.data = [] →
      getORPIndex t = 0) := by
  refine ⟨?_, by decide, ?_⟩
  · intro t
    have hlen : t.length = t.data.length := rfl
    simp only [getORPIndex]
    split
    · rw [hlen]; exact mul3_div10_le _
    · split
      · exact Nat.zero_le _
      · have h1 : (t.data.takeWhile isOrpOpen).length +
            (t.data.dropWhile isOrpOpen).length = t.data.length := by
          rw [← List.length_append, List.takeWhile_append_dropWhile]
        have h2 : (strippedCore t.data).length ≤ (t.data.dropWhile isOrpOpen).length := by
          unfold strippedCore
          rw [List.length_reverse]
          refine le_trans (dropWhile_length_le _ _) ?_
          rw [List.length_reverse]
        have h3 := mul3_div10_le (strippedCore t.data).length
        rw [hlen]
        omega
  · intro t h1 h2
    simp [getORPIndex, h1, h2]

/-- C8 witness: a token made of two double quotes has an empty stripped core
and recognition point 0, inside its length. -/
theorem getORPIndex_bounds_witness :
    ("\"\"" : String).data.any isLineTerm = false ∧
    strippedCore ("\"\"" : String).data = [] ∧
    getORPIndex "\"\"" = 0 ∧ getORPIndex "\"\"" ≤ ("\"\"" : String).length :=
  ⟨by decide, by decide,
   getORPIndex_bounds.2.2 "\"\"" (by decide) (by decide),
   getORPIndex_bounds.1 "\"\""⟩

/-! The timer discipline of the scheduler. -/

/-- The single-timer invariant: nothing is pending, or exactly the stored
handle is pending. -/
def TimerInv (s : Sched) : Prop :=
  s.pending = [] ∨ ∃ id, s.timerRef = some id ∧ s.pending = [id]

theorem clearStored_pending (s : Sched) (h : TimerInv s) :
    (clearStored s).pending = [] := by
  rcases h with h | ⟨id, h1, h2⟩
  · cases hr : s.timerRef <;> simp [clearStored, hr, h]
  · simp [clearStored, h1, h2]

theorem armTimer_inv (s : Sched) (h : s.pending = []) : TimerInv (armTimer s) := by
  unfold armTimer
  split
  · exact Or.inr ⟨s.nextId, rfl, by simp [h]⟩
  · exact Or.inl h

theorem runEffect_inv (s : Sched) (h : TimerInv s) : TimerInv (runEffect s) :=
  armTimer_inv _ (clearStored_pending _ h)

theorem effectAfter_inv (old s : Sched) (h : TimerInv s) : TimerInv (effectAfter old s) := by
  unfold effectAfter
  split
  · exact h
  · exact runEffect_inv _ h

theorem fireStep_inv (s : Sched) (id : ℕ) (h : TimerInv s) : TimerInv (fireStep s id).1 := by
  unfold fireStep
  split
  · rename_i hmem
    have hp0 : s.pending.filter (fun j => j != id) = [] := by
      rcases h with h | ⟨id', h1, h2⟩
      · rw [h] at hmem; simp at hmem
      · rw [h2] at hmem
        simp at hmem
        subst hmem
        simp [h2]
    unfold tickBody
    dsimp only
    split
    · exact effectAfter_inv _ _ (Or.inl (clearStored_pending _ (Or.inl hp0)))
    · exact effectAfter_inv _ _ (Or.inl hp0)
  · exact h

theorem runOp_inv (s : Sched) (op : Op) (h : TimerInv s) : TimerInv (runOp s op).1 := by
  cases op with
  | togglePlay =>
    simp only [runOp]
    unfold togglePlayStep
    apply effectAfter_inv
    split <;> exact h
  | seek n =>
    simp only [runOp]
    unfold seekStep
    apply effectAfter_inv
    exact h
  | stop =>
    simp only [runOp]
    unfold stopStep
    apply effectAfter_inv
    exact Or.inl (clearStored_pending _ h)
  | fire id => exact fireStep_inv s id h

theorem runOps_inv (ops : List Op) : ∀ s : Sched, TimerInv s → TimerInv (runOps s ops).1 := by
  induction ops with
  | nil => intro s h; exact h
  | cons op ops ih => intro s h; exact ih _ (runOp_inv s op h)

theorem stopStep_clears (s : Sched) (h : TimerInv s) :
    (stopStep s).1.pending = [] ∧ (stopStep s).1.timerRef = none := by
  have hp : (clearStored s).pending = [] := clearStored_pending s h
  unfold stopStep effectAfter
  dsimp only
  split
  · exact ⟨hp, rfl⟩
  · unfold runEffect armTimer
    split
    · rename_i hcond
      simp [clearStored] at hcond
    · exact ⟨hp, rfl⟩

/-- C5: after any sequence of calls and timer firings at most one timeout is
pending, and a stop leaves a state in which no timeout handle can fire any
callback. -/
theorem single_timer_no_stale_callbacks (ws : List String) (i : ℕ) (ops : List Op) (id : ℕ) :
    (runOps (initSched ws i) ops).1.pending.length ≤ 1 ∧
    (fireStep (stopStep (runOps (initSched ws i) ops).1).1 id).2 = [] := by
  have hinv : TimerInv (runOps (initSched ws i) ops).1 :=
    runOps_inv ops _ (Or.inl rfl)
  constructor
  · rcases hinv with h | ⟨id', _, h2⟩
    · simp [h]
    · simp [h2]
  · have hs := stopStep_clears _ hinv
    have hnot : ¬ id ∈ (stopStep (runOps (initSched ws i) ops).1).1.pending := by
      rw [hs.1]; simp
    unfold fireStep
    rw [if_neg hnot]

/-! The empty-stream behaviour. -/

/-- An empty-stream session state: index 0 and no timer was ever armed. -/
def EmptySafe (s : Sched) : Prop :=
  s.words = [] ∧ s.index = 0 ∧ s.timerRef = none ∧ s.pending = [] ∧ s.nextId = 0

theorem armTimer_empty (s : Sched) (hw : s.words = []) : armTimer s = s := by
  unfold armTimer
  rw [if_neg]
  simp [hw]

theorem clearStored_none (s : Sched) (hr : s.timerRef = none) : clearStored s = s := by
  obtain ⟨w, i, pl, r, pe, n⟩ := s
  obtain rfl : r = none := hr
  rfl

theorem runEffect_empty (s : Sched) (hw : s.words = []) (hr : s.timerRef = none) :
    runEffect s = s := by
  unfold runEffect
  rw [clearStored_none, armTimer_empty]
  · exact hw
  · exact hr

theorem runOp_emptySafe (s : Sched) (op : Op) (h : EmptySafe s) :
    EmptySafe (runOp s op).1 := by
  obtain ⟨hw, hi, hr, hp, hn⟩ := h
  cases op with
  | togglePlay =>
    simp only [runOp]
    unfold togglePlayStep
    have hc : ((s.words.length : ℤ) - 1 ≤ (s.index : ℤ)) := by
      rw [hw]; simp only [List.length_nil, Nat.cast_zero]; omega
    rw [if_pos hc]
    unfold effectAfter
    dsimp only
    split
    · exact ⟨hw, rfl, hr, hp, hn⟩
    · rw [runEffect_empty]
      · exact ⟨hw, rfl, hr, hp, hn⟩
      · exact hw
      · exact hr
  | seek n =>
    simp only [runOp]
    unfold seekStep
    have hx : min n ((s.words.length : ℤ) - 1) ≤ 0 := by
      rw [hw]
      exact le_trans (min_le_right _ _) (by norm_num)
    have hcl : max 0 (min n ((s.words.length : ℤ) - 1)) = 0 := max_eq_left hx
    rw [hcl]
    unfold effectAfter
    dsimp only
    split
    · exact ⟨hw, rfl, hr, hp, hn⟩
    · rw [runEffect_empty]
      · exact ⟨hw, rfl, hr, hp, hn⟩
      · exact hw
      · exact hr
  | stop =>
    simp only [runOp]
    unfold stopStep
    rw [clearStored_none _ hr]
    unfold effectAfter
    dsimp only
    split
    · exact ⟨hw, hi, rfl, hp, hn⟩
    · rw [runEffect_empty]
      · exact ⟨hw, hi, rfl, hp, hn⟩
      · exact hw
      · rfl
  | fire id =>
    simp only [runOp]
    unfold fireStep
    rw [if_neg]
    · exact ⟨hw, hi, hr, hp, hn⟩
    · rw [hp]; simp

theorem togglePlay_empty_playing (s : Sched) (h : EmptySafe s) :
    (runOp s Op.togglePlay).1.isPlaying = true := by
  obtain ⟨hw, hi, hr, hp, hn⟩ := h
  simp only [runOp]
  unfold togglePlayStep
  have hc : ((s.words.length : ℤ) - 1 ≤ (s.index : ℤ)) := by
    rw [hw]; simp only [List.length_nil, Nat.cast_zero]; omega
  rw [if_pos hc]
  unfold effectAfter
  dsimp only
  split
  · rfl
  · rw [runEffect_empty]
    · exact hw
    · exact hr

theorem runOps_emptySafe (ops : List Op) : ∀ s : Sched, EmptySafe s → EmptySafe (runOps s ops).1 := by
  induction ops with
  | nil => intro s h; exact h
  | cons op ops ih => intro s h; exact ih _ (runOp_emptySafe s op h)

/-- C4 counterexample: on an empty stream `togglePlay` is not a state no-op:
it flips `isPlaying` from false to true. -/
theorem togglePlay_empty_counterexample :
    (initSched [] 0).isPlaying = false ∧
    (runOp (initSched [] 0) Op.togglePlay).1.isPlaying = true := by decide

theorem runOp_empty_stopped_playing (s : Sched) (h : EmptySafe s)
    (hstop : s.isPlaying = false) :
    (∀ n : ℤ, (runOp s (Op.seek n)).1.isPlaying = false) ∧
    (runOp s Op.stop).1.isPlaying = false ∧
    (∀ id : ℕ, (runOp s (Op.fire id)).1.isPlaying = false) := by
  obtain ⟨hw, hi, hr, hp, hn⟩ := h
  refine ⟨?_, ?_, ?_⟩
  · intro n
    simp only [runOp]
    unfold seekStep
    unfold effectAfter
    dsimp only
    split
    · exact hstop
    · rw [runEffect_empty]
      · exact hstop
      · exact hw
      · exact hr
  · simp only [runOp]
    unfold stopStep
    unfold effectAfter
    dsimp only
    split
    · rfl
    · rw [runEffect_empty]
      · exact hw
      · rfl
  · intro id
    simp only [runOp]
    unfold fireStep
    rw [if_neg]
    · exact hstop
    · rw [hp]; simp

/-- C4 amended: on an empty word stream `currentIndex` stays 0 under every
operation sequence and no timer is ever armed (no pending timeout, no stored
handle, no handle ever allocated); a seek, a stop or a timer firing applied
to a stopped state also leaves `isPlaying` false — together with the pinned
index this leaves the state {currentIndex, isPlaying} unchanged — but
`togglePlay` sets `isPlaying` to true instead of leaving the state
unchanged. -/
theorem empty_stream_safe (ops : List Op) :
    (runOps (initSched [] 0) ops).1.index = 0 ∧
    (runOps (initSched [] 0) ops).1.pending = [] ∧
    (runOps (initSched [] 0) ops).1.timerRef = none ∧
    (runOps (initSched [] 0) ops).1.nextId = 0 ∧
    (runOp (runOps (initSched [] 0) ops).1 Op.togglePlay).1.isPlaying = true ∧
    ((runOps (initSched [] 0) ops).1.isPlaying = false →
      (∀ n : ℤ, (runOp (runOps (initSched [] 0) ops).1 (Op.seek n)).1.isPlaying = false) ∧
      (runOp (runOps (initSched [] 0) ops).1 Op.stop).1.isPlaying = false ∧
      (∀ id : ℕ, (runOp (runOps (initSched [] 0) ops).1 (Op.fire id)).1.isPlaying = false)) := by
  have h : EmptySafe (runOps (initSched [] 0) ops).1 :=
    runOps_emptySafe ops _ ⟨rfl, rfl, rfl, rfl, rfl⟩
  exact ⟨h.2.1, h.2.2.2.1, h.2.2.1, h.2.2.2.2, togglePlay_empty_playing _ h,
    fun hstop => runOp_empty_stopped_playing _ h hstop⟩

/-- C4 witness: after togglePlay then stop on the empty stream the session is
stopped, and another stop leaves it stopped. -/
theorem empty_stream_safe_witness :
    (runOps (initSched [] 0) [Op.togglePlay, Op.stop]).1.isPlaying = false ∧
    (runOp (runOps (initSched [] 0) [Op.togglePlay, Op.stop]).1 Op.stop).1.isPlaying = false :=
  ⟨by decide,
   ((empty_stream_safe [Op.togglePlay, Op.stop]).2.2.2.2.2 (by decide)).2.1⟩

/-! Index bounds of the scheduler. -/

theorem effectAfter_index (old s : Sched) : (effectAfter old s).index = s.index := by
  unfold effectAfter runEffect armTimer
  split
  · rfl
  · split <;> rfl

theorem effectAfter_words (old s : Sched) : (effectAfter old s).words = s.words := by
  unfold effectAfter runEffect armTimer
  split
  · rfl
  · split <;> rfl

theorem inBounds_effectAfter (old s : Sched) (h : InBounds s) : InBounds (effectAfter old s) := by
  unfold InBounds at h ⊢
  rw [effectAfter_index, effectAfter_words]
  exact h

theorem runOp_inBounds (s : Sched) (op : Op) (h : InBounds s) : InBounds (runOp s op).1 := by
  cases op with
  | togglePlay =>
    simp only [runOp]
    unfold togglePlayStep
    dsimp only
    apply inBounds_effectAfter
    split
    · rcases Nat.eq_zero_or_pos s.words.length with h0 | h0
      · exact Or.inl ⟨List.length_eq_zero.mp h0, rfl⟩
      · exact Or.inr h0
    · exact h
  | seek n =>
    simp only [runOp]
    unfold seekStep
    dsimp only
    apply inBounds_effectAfter
    rcases Nat.eq_zero_or_pos s.words.length with h0 | h0
    · refine Or.inl ⟨List.length_eq_zero.mp h0, ?_⟩
      have hx : min n ((s.words.length : ℤ) - 1) ≤ 0 := by
        rw [h0]
        exact le_trans (min_le_right _ _) (by norm_num)
      rw [max_eq_left hx]
      rfl
    · refine Or.inr ?_
      have hlt : max 0 (min n ((s.words.length : ℤ) - 1)) < (s.words.length : ℤ) := by
        apply max_lt
        · exact_mod_cast h0
        · exact lt_of_le_of_lt (min_le_right _ _) (by omega)
      dsimp only
      omega
  | stop =>
    simp only [runOp]
    unfold stopStep
    dsimp only
    exact inBounds_effectAfter _ _ h
  | fire id =>
    simp only [runOp]
    unfold fireStep
    split
    · unfold tickBody
      dsimp only
      split
      · exact inBounds_effectAfter _ _ h
      · rename_i hcond
        apply inBounds_effectAfter
        refine Or.inr ?_
        dsimp only at hcond ⊢
        omega
    · exact h

theorem runOps_inBounds (ops : List Op) : ∀ s : Sched, InBounds s → InBounds (runOps s ops).1 := by
  induction ops with
  | nil => intro s h; exact h
  | cons op ops ih => intro s h; exact ih _ (runOp_inBounds s op h)

theorem openSession_inBounds (ws : List String) (p : ℚ) (h0 : 0 ≤ p) (h1 : p < 1) :
    InBounds (openSession ws p) := by
  unfold openSession initSched InBounds savedIdx
  dsimp only
  rcases Nat.eq_zero_or_pos ws.length with hz | hpos
  · refine Or.inl ⟨List.length_eq_zero.mp hz, ?_⟩
    rw [hz]
    norm_num
  · refine Or.inr ?_
    have hlt : Int.floor (p * (ws.length : ℚ)) < (ws.length : ℤ) := by
      rw [Int.floor_lt]
      push_cast
      calc p * ws.length < 1 * ws.length := by
            apply mul_lt_mul_of_pos_right h1
            exact_mod_cast hpos
      _ = ws.length := one_mul _
    have hge : (0 : ℤ) ≤ Int.floor (p * (ws.length : ℚ)) := by
      apply Int.floor_nonneg.mpr
      exact mul_nonneg h0 (Nat.cast_nonneg _)
    omega

/-- C3 counterexample: with the stored progress fraction 1 — inside the
claim's range [0,1] — a 5-token session opens at index 5, outside
[0, 4]. -/
theorem initial_index_fraction_one_counterexample :
    (0 : ℚ) ≤ 1 ∧ (1 : ℚ) ≤ 1 ∧
    (openSession ["Hello,", "world.", "This", "is", "great!"] 1).index = 5 ∧
    ¬ InBounds (openSession ["Hello,", "world.", "This", "is", "great!"] 1) := by
  have hidx : (openSession ["Hello,", "world.", "This", "is", "great!"] 1).index = 5 := by
    unfold openSession savedIdx initSched
    norm_num
    decide
  refine ⟨by norm_num, le_refl 1, hidx, ?_⟩
  unfold InBounds
  rw [hidx]
  rintro (⟨hw, hzero⟩ | hlt)
  · exact absurd hw (by simp [openSession, initSched])
  · have : (openSession ["Hello,", "world.", "This", "is", "great!"] 1).words.length = 5 := by
      simp [openSession, initSched]
    omega

/-- C3 amended: from a stored progress fraction in [0,1) the session opens in
bounds — index in [0, length-1], or 0 on an empty stream — and every
togglePlay, tick, seek and stop keeps it there; at fraction exactly 1 the
initial index equals the stream length and is out of bounds. -/
theorem index_in_bounds (ws : List String) (p : ℚ) (ops : List Op)
    (h0 : 0 ≤ p) (h1 : p < 1) :
    InBounds (runOps (openSession ws p) ops).1 :=
  runOps_inBounds ops _ (openSession_inBounds ws p h0 h1)

/-- C3 witness: a concrete in-bounds run. -/
theorem index_in_bounds_witness :
    (0 : ℚ) ≤ 1/2 ∧ (1/2 : ℚ) < 1 ∧
    InBounds (runOps (openSession ["a"] (1/2)) [Op.togglePlay, Op.fire 0]).1 :=
  ⟨by norm_num, by norm_num,
   index_in_bounds ["a"] (1/2) [Op.togglePlay, Op.fire 0] (by norm_num) (by norm_num)⟩

/-! The five-token autoplay scenario. -/

/-- C1 counterexample: in the five-token autoplay run the progress callback
fires with index 5 — beyond the last valid index 4 — on the completion
tick. -/
theorem autoplay_progress_overshoot_counterexample :
    Ev.progress 5 ∈ (runOps (initSched ["Hello,", "world.", "This", "is", "great!"] 0)
      [Op.togglePlay, Op.fire 0, Op.fire 1, Op.fire 2, Op.fire 3, Op.fire 4]).2 ∧
    4 < 5 := by
  constructor
  · decide
  · norm_num

/-- C1 amended: togglePlay on the 5-token stream of the spec's scenario at
index 0 followed by the five timer firings reaches Stopped at index 4 with no
timer pending; the callbacks are exactly onProgress(1), ..., onProgress(5) in
strictly increasing order followed by one onComplete — the completion tick
still reports progress at index 5, the stream length, one past the last valid
index 4, before completing. -/
theorem autoplay_five_token_trace :
    runOps (initSched ["Hello,", "world.", "This", "is", "great!"] 0)
      [Op.togglePlay, Op.fire 0, Op.fire 1, Op.fire 2, Op.fire 3, Op.fire 4] =
    (⟨["Hello,", "world.", "This", "is", "great!"], 4, false, none, [], 5⟩,
     [Ev.progress 1, Ev.progress 2, Ev.progress 3, Ev.progress 4, Ev.progress 5,
      Ev.complete]) := by decide

/-! The windowed paragraph synchronization. -/

theorem take_getElem? {α : Type} (l : List α) (n j : ℕ) :
    (l.take n)[j]? = if j < n then l[j]? else none := by
  split
  · rename_i h
    exact List.getElem?_take_of_lt h
  · rename_i h
    apply List.getElem?_eq_none
    rw [List.length_take]
    omega

theorem slice_getElem? {α : Type} (l : List α) (a b j : ℕ) :
    ((l.drop a).take (b - a))[j]? = if a + j < b then l[a + j]? else none := by
  rw [take_getElem?, List.getElem?_drop]
  by_cases h : j < b - a
  · rw [if_pos h, if_pos (by omega)]
  · rw [if_neg h]
    by_cases h2 : a + j < b
    · omega
    · rw [if_neg h2]

theorem findIndexJs_none {α : Type} (pred : α → Bool) :
    ∀ l : List α, (∀ a ∈ l, pred a = false) → findIndexJs pred l = -1 := by
  intro l
  induction l with
  | nil => intro _; rfl
  | cons a l ih =>
    intro h
    have ha : pred a = false := h a (List.mem_cons_self a l)
    have hl : findIndexJs pred l = -1 := ih (fun x hx => h x (List.mem_cons_of_mem _ hx))
    simp [findIndexJs, ha, hl]

theorem findIndexJs_found {α : Type} (pred : α → Bool) :
    ∀ l : List α, (∃ a ∈ l, pred a = true) →
    ∃ i : ℕ, findIndexJs pred l = (i : ℤ) ∧ ∃ a, l[i]? = some a ∧ pred a = true := by
  intro l
  induction l with
  | nil => rintro ⟨a, ha, _⟩; exact absurd ha (List.not_mem_nil a)
  | cons a l ih =>
    rintro ⟨b, hb, hpb⟩
    by_cases ha : pred a = true
    · exact ⟨0, by simp [findIndexJs, ha], a, by simp, ha⟩
    · have ha' : pred a = false := by
        cases hpa : pred a
        · rfl
        · exact absurd hpa ha
      have hbl : b ∈ l := by
        rcases List.mem_cons.mp hb with rfl | h
        · exact absurd hpb ha
        · exact h
      obtain ⟨i, hi, c, hc, hpc⟩ := ih ⟨b, hbl, hpb⟩
      have hne : ¬ findIndexJs pred l = -1 := by rw [hi]; omega
      refine ⟨i + 1, ?_, c, ?_, hpc⟩
      · simp only [findIndexJs, ha', Bool.false_eq_true, if_false, hne, if_neg hne, hi]
        push_cast
        ring
      · simpa using hc

/-- C9: the anchor paragraph is one whose token range contains the current
index when any does (the first such, as `findIndex` returns), paragraph 0
when none does, and the visible window is exactly the slice of paragraphs
with positions in [max(0, anchor-40), min(total, anchor+41)). -/
theorem scroll_window_spec (ps : List ParagraphData) (ci : ℕ) :
    ((∃ p ∈ ps, inRange p ci = true) →
      anchorIndex ps ci < ps.length ∧
      ∃ p, ps[anchorIndex ps ci]? = some p ∧ inRange p ci = true) ∧
    ((∀ p ∈ ps, inRange p ci = false) → anchorIndex ps ci = 0) ∧
    (∀ j : ℕ, (visibleParagraphs ps ci)[j]? =
      if winStart ps ci + j < winEnd ps ci then ps[winStart ps ci + j]? else none) := by
  refine ⟨?_, ?_, ?_⟩
  · intro h
    obtain ⟨i, hi, p, hp, hpr⟩ := findIndexJs_found _ ps h
    have hanchor : anchorIndex ps ci = i := by
      unfold anchorIndex activeParagraphIndex
      rw [hi]
      rw [if_neg (by omega)]
      simp
    have hlt : i < ps.length := by
      rcases List.getElem?_eq_some.mp hp with ⟨hl, _⟩
      exact hl
    rw [hanchor]
    exact ⟨hlt, p, hp, hpr⟩
  · intro h
    unfold anchorIndex activeParagraphIndex
    rw [findIndexJs_none _ ps h]
    simp
  · intro j
    unfold visibleParagraphs
    exact slice_getElem? ps _ _ j

/-- C9 witness: a concrete two-paragraph layout at current index 2. -/
theorem scroll_window_spec_witness :
    (∃ p ∈ [ParagraphData.mk "a b" 0 2 ["a", "b"], ParagraphData.mk "c" 2 1 ["c"]],
      inRange p 2 = true) ∧
    anchorIndex [ParagraphData.mk "a b" 0 2 ["a", "b"], ParagraphData.mk "c" 2 1 ["c"]] 2 <
      [ParagraphData.mk "a b" 0 2 ["a", "b"], ParagraphData.mk "c" 2 1 ["c"]].length ∧
    ∃ p, [ParagraphData.mk "a b" 0 2 ["a", "b"],
          ParagraphData.mk "c" 2 1 ["c"]][anchorIndex [ParagraphData.mk "a b" 0 2 ["a", "b"],
            ParagraphData.mk "c" 2 1 ["c"]] 2]? = some p ∧ inRange p 2 = true :=
  ⟨by decide,
   ((scroll_window_spec [ParagraphData.mk "a b" 0 2 ["a", "b"],
      ParagraphData.mk "c" 2 1 ["c"]] 2).1 (by decide)).1,
   ((scroll_window_spec [ParagraphData.mk "a b" 0 2 ["a", "b"],
      ParagraphData.mk "c" 2 1 ["c"]] 2).1 (by decide)).2⟩

/-! Tokenizer idempotence. -/

theorem space_ws : isWs ' ' = true := by decide

theorem nl_ws : isWs '\n' = true := by decide

theorem space_not_pad : isPad ' ' = false := by decide

theorem isPad_cases (c : Char) (h : isPad c = true) : c = '—' ∨ c = '–' ∨ c = '…' := by
  have h' : (c = '—' ∨ c = '–') ∨ c = '…' := by simpa [isPad] using h
  tauto

theorem isPad_not_ws (c : Char) (h : isPad c = true) : isWs c = false := by
  rcases isPad_cases c h with rfl | rfl | rfl <;> decide

theorem nl2sp_of_not_ws (c : Char) (h : isWs c = false) : nl2sp c = c := by
  unfold nl2sp
  rw [if_neg]
  intro hc
  subst hc
  rw [nl_ws] at h
  cases h

theorem nl2sp_of_pad (c : Char) (h : isPad c = true) : nl2sp c = c :=
  nl2sp_of_not_ws c (isPad_not_ws c h)

theorem preprocess_nil : preprocess [] = [] := rfl

theorem preprocess_cons (c : Char) (l : List Char) :
    preprocess (c :: l) = padChar (nl2sp c) ++ preprocess l := by
  simp [preprocess]

theorem preprocess_append (a b : List Char) :
    preprocess (a ++ b) = preprocess a ++ preprocess b := by
  simp [preprocess]

theorem preprocess_space (l : List Char) :
    preprocess (' ' :: l) = ' ' :: preprocess l := by
  rw [preprocess_cons, show nl2sp ' ' = ' ' from by decide]
  simp [padChar, space_not_pad]

theorem preprocess_pad_singleton (c : Char) (h : isPad c = true) :
    preprocess [c] = [' ', c, ' '] := by
  rw [show [c] = c :: ([] : List Char) from rfl, preprocess_cons, nl2sp_of_pad c h]
  simp [padChar, h, preprocess_nil]

theorem preprocess_clean (t : List Char) (hws : ∀ c ∈ t, isWs c = false)
    (hpad : ∀ c ∈ t, isPad c = false) : preprocess t = t := by
  induction t with
  | nil => rfl
  | cons c cs ih =>
    rw [preprocess_cons, nl2sp_of_not_ws c (hws c (List.mem_cons_self c cs))]
    rw [show padChar c = [c] from by simp [padChar, hpad c (List.mem_cons_self c cs)]]
    rw [ih (fun x hx => hws x (List.mem_cons_of_mem _ hx))
        (fun x hx => hpad x (List.mem_cons_of_mem _ hx))]
    rfl

theorem takeWhile_all {α : Type} (p : α → Bool) :
    ∀ l : List α, (∀ c ∈ l, p c = true) → l.takeWhile p = l := by
  intro l
  induction l with
  | nil => intro _; rfl
  | cons c cs ih =>
    intro h
    rw [List.takeWhile_cons, if_pos (h c (List.mem_cons_self c cs)),
        ih (fun x hx => h x (List.mem_cons_of_mem _ hx))]

theorem dropWhile_all {α : Type} (p : α → Bool) :
    ∀ l : List α, (∀ c ∈ l, p c = true) → l.dropWhile p = [] := by
  intro l
  induction l with
  | nil => intro _; rfl
  | cons c cs ih =>
    intro h
    rw [List.dropWhile_cons, if_pos (h c (List.mem_cons_self c cs))]
    exact ih (fun x hx => h x (List.mem_cons_of_mem _ hx))

theorem takeWhile_append_stop {α : Type} (p : α → Bool) :
    ∀ (l : List α) (c : α) (r : List α), (∀ x ∈ l, p x = true) → p c = false →
    (l ++ c :: r).takeWhile p = l := by
  intro l
  induction l with
  | nil => intro c r _ hc; simp [List.takeWhile_cons, hc]
  | cons a l ih =>
    intro c r h hc
    rw [List.cons_append, List.takeWhile_cons, if_pos (h a (List.mem_cons_self a l)),
        ih c r (fun x hx => h x (List.mem_cons_of_mem _ hx)) hc]

theorem dropWhile_append_stop {α : Type} (p : α → Bool) :
    ∀ (l : List α) (c : α) (r : List α), (∀ x ∈ l, p x = true) → p c = false →
    (l ++ c :: r).dropWhile p = c :: r := by
  intro l
  induction l with
  | nil => intro c r _ hc; simp [List.dropWhile_cons, hc]
  | cons a l ih =>
    intro c r h hc
    rw [List.cons_append, List.dropWhile_cons, if_pos (h a (List.mem_cons_self a l))]
    exact ih c r (fun x hx => h x (List.mem_cons_of_mem _ hx)) hc

set_option maxHeartbeats 4000000 in
theorem wsplit_nil : wsplit [] = [] := by
  unfold wsplit
  rfl

theorem wsplit_cons_ws (c : Char) (cs : List Char) (h : isWs c = true) :
    wsplit (c :: cs) = wsplit cs := by
  conv_lhs => unfold wsplit
  rw [if_pos h]

theorem wsplit_cons_not_ws (c : Char) (cs : List Char) (h : isWs c = false) :
    wsplit (c :: cs) =
      (c :: cs.takeWhile (fun d => !isWs d)) :: wsplit (cs.dropWhile (fun d => !isWs d)) := by
  conv_lhs => unfold wsplit
  rw [if_neg (by simp [h])]

theorem wsplit_token (t : List Char) (h1 : t ≠ []) (h2 : ∀ c ∈ t, isWs c = false) :
    wsplit t = [t] := by
  obtain ⟨c, cs, rfl⟩ := List.exists_cons_of_ne_nil h1
  rw [wsplit_cons_not_ws c cs (h2 c (List.mem_cons_self c cs))]
  rw [takeWhile_all _ cs (fun x hx => by
    simp [h2 x (List.mem_cons_of_mem _ hx)])]
  rw [dropWhile_all _ cs (fun x hx => by
    simp [h2 x (List.mem_cons_of_mem _ hx)])]
  rw [wsplit_nil]

theorem wsplit_append_ws (t : List Char) (w : Char) (r : List Char)
    (h1 : t ≠ []) (h2 : ∀ c ∈ t, isWs c = false) (hw : isWs w = true) :
    wsplit (t ++ w :: r) = t :: wsplit r := by
  obtain ⟨c, cs, rfl⟩ := List.exists_cons_of_ne_nil h1
  rw [List.cons_append, wsplit_cons_not_ws c _ (h2 c (List.mem_cons_self c cs))]
  rw [takeWhile_append_stop _ cs w r (fun x hx => by
    simp [h2 x (List.mem_cons_of_mem _ hx)]) (by simp [hw])]
  rw [dropWhile_append_stop _ cs w r (fun x hx => by
    simp [h2 x (List.mem_cons_of_mem _ hx)]) (by simp [hw])]
  rw [wsplit_cons_ws w r hw]

theorem wsplit_good (m : List Char) :
    ∀ t ∈ wsplit m, t ≠ [] ∧ ∀ c ∈ t, isWs c = false := by
  cases m with
  | nil =>
    rw [wsplit_nil]
    intro t ht
    exact absurd ht (List.not_mem_nil t)
  | cons c cs =>
    cases hb : isWs c with
    | true =>
      rw [wsplit_cons_ws c cs hb]
      exact wsplit_good cs
    | false =>
      rw [wsplit_cons_not_ws c cs hb]
      intro t ht
      rcases List.mem_cons.mp ht with rfl | ht'
      · refine ⟨by simp, ?_⟩
        intro x hx
        rcases List.mem_cons.mp hx with rfl | hx'
        · exact hb
        · simpa using List.mem_takeWhile_imp hx'
      · exact wsplit_good (cs.dropWhile (fun d => !isWs d)) t ht'
termination_by m.length
decreasing_by
  all_goals simp only [List.length_cons]
  all_goals first
    | exact Nat.lt_succ_of_le (dropWhile_length_le _ _)
    | omega

theorem takeWhile_ws_head (w : Char) (r : List Char) (hw : isWs w = true) :
    (w :: r).takeWhile (fun d => !isWs d) = [] := by
  rw [List.takeWhile_cons]
  simp [hw]

theorem dropWhile_ws_head (w : Char) (r : List Char) (hw : isWs w = true) :
    (w :: r).dropWhile (fun d => !isWs d) = w :: r := by
  rw [List.dropWhile_cons]
  simp [hw]

theorem wsplit_pre_pads (l : List Char) :
    ∀ acc : List Char, (∀ c ∈ acc, isWs c = false ∧ isPad c = false) →
    ∀ t ∈ wsplit (acc ++ preprocess l), ∀ c ∈ t, isPad c = true → t = [c] := by
  induction l with
  | nil =>
    intro acc hacc
    rw [preprocess_nil, List.append_nil]
    by_cases h : acc = []
    · subst h
      rw [wsplit_nil]
      intro t ht
      exact absurd ht (List.not_mem_nil t)
    · rw [wsplit_token acc h (fun c hc => (hacc c hc).1)]
      intro t ht c hc hpad
      rw [List.mem_singleton] at ht
      subst ht
      exact absurd hpad (by simp [(hacc c hc).2])
  | cons d l ih =>
    intro acc hacc
    rw [preprocess_cons]
    by_cases hpad : isPad (nl2sp d) = true
    · rw [show padChar (nl2sp d) = [' ', nl2sp d, ' '] from by simp [padChar, hpad]]
      simp only [List.cons_append, List.nil_append]
      by_cases h : acc = []
      · subst h
        simp only [List.nil_append]
        rw [wsplit_cons_ws ' ' _ space_ws,
            wsplit_cons_not_ws (nl2sp d) _ (isPad_not_ws _ hpad),
            takeWhile_ws_head ' ' _ space_ws, dropWhile_ws_head ' ' _ space_ws,
            wsplit_cons_ws ' ' _ space_ws]
        intro t ht
        rcases List.mem_cons.mp ht with rfl | ht'
        · intro c hc hp
          rw [List.mem_singleton] at hc
          subst hc
          rfl
        · exact ih [] (fun c hc => absurd hc (List.not_mem_nil c)) t (by simpa using ht')
      · rw [wsplit_append_ws acc ' ' (nl2sp d :: ' ' :: preprocess l) h
              (fun c hc => (hacc c hc).1) space_ws,
            wsplit_cons_not_ws (nl2sp d) _ (isPad_not_ws _ hpad),
            takeWhile_ws_head ' ' _ space_ws, dropWhile_ws_head ' ' _ space_ws,
            wsplit_cons_ws ' ' _ space_ws]
        intro t ht
        rcases List.mem_cons.mp ht with rfl | ht'
        · intro c hc hp
          exact absurd hp (by simp [(hacc c hc).2])
        · rcases List.mem_cons.mp ht' with rfl | ht''
          · intro c hc hp
            rw [List.mem_singleton] at hc
            subst hc
            rfl
          · exact ih [] (fun c hc => absurd hc (List.not_mem_nil c)) t (by simpa using ht'')
    · have hpad' : isPad (nl2sp d) = false := by simpa using hpad
      rw [show padChar (nl2sp d) = [nl2sp d] from by simp [padChar, hpad']]
      simp only [List.cons_append, List.nil_append]
      by_cases hws : isWs (nl2sp d) = true
      · by_cases h : acc = []
        · subst h
          simp only [List.nil_append]
          rw [wsplit_cons_ws _ _ hws]
          exact ih [] (fun c hc => absurd hc (List.not_mem_nil c))
        · rw [wsplit_append_ws acc (nl2sp d) (preprocess l) h
                (fun c hc => (hacc c hc).1) hws]
          intro t ht
          rcases List.mem_cons.mp ht with rfl | ht'
          · intro c hc hp
            exact absurd hp (by simp [(hacc c hc).2])
          · exact ih [] (fun c hc => absurd hc (List.not_mem_nil c)) t (by simpa using ht')
      · have hws' : isWs (nl2sp d) = false := by simpa using hws
        rw [show acc ++ nl2sp d :: preprocess l = (acc ++ [nl2sp d]) ++ preprocess l from by simp]
        apply ih (acc ++ [nl2sp d])
        intro c hc
        rcases List.mem_append.mp hc with h1 | h1
        · exact hacc c h1
        · rw [List.mem_singleton] at h1
          subst h1
          exact ⟨hws', hpad'⟩

theorem joinSp_ne_nil (t : List Char) (rest : List (List Char)) (h : t ≠ []) :
    joinSp (t :: rest) ≠ [] := by
  cases rest with
  | nil => simpa [joinSp] using h
  | cons u us => simp [joinSp]

theorem wsplit_pre_join (ts : List (List Char))
    (h : ∀ t ∈ ts, t ≠ [] ∧ (∀ c ∈ t, isWs c = false) ∧ (∀ c ∈ t, isPad c = true → t = [c])) :
    wsplit (preprocess (joinSp ts)) = ts := by
  induction ts with
  | nil =>
    rw [show joinSp [] = [] from rfl, preprocess_nil, wsplit_nil]
  | cons t ts ih =>
    obtain ⟨htne, htws, htpad⟩ := h t (List.mem_cons_self t ts)
    have hts : ∀ u ∈ ts, u ≠ [] ∧ (∀ c ∈ u, isWs c = false) ∧
        (∀ c ∈ u, isPad c = true → u = [c]) :=
      fun u hu => h u (List.mem_cons_of_mem _ hu)
    cases ts with
    | nil =>
      rw [show joinSp [t] = t from rfl]
      by_cases hp : ∃ c, t = [c] ∧ isPad c = true
      · obtain ⟨c, rfl, hc⟩ := hp
        rw [preprocess_pad_singleton c hc]
        rw [wsplit_cons_ws ' ' _ space_ws,
            wsplit_cons_not_ws c _ (isPad_not_ws _ hc),
            takeWhile_ws_head ' ' _ space_ws, dropWhile_ws_head ' ' _ space_ws,
            wsplit_cons_ws ' ' _ space_ws, wsplit_nil]
      · have hnopad : ∀ c ∈ t, isPad c = false := by
          intro c hc
          cases hb : isPad c
          · rfl
          · exact absurd ⟨c, htpad c hc hb, hb⟩ hp
        rw [preprocess_clean t htws hnopad]
        exact wsplit_token t htne htws
    | cons t2 ts2 =>
      rw [show joinSp (t :: t2 :: ts2) = t ++ ' ' :: joinSp (t2 :: ts2) from rfl]
      rw [preprocess_append, preprocess_space]
      by_cases hp : ∃ c, t = [c] ∧ isPad c = true
      · obtain ⟨c, rfl, hc⟩ := hp
        rw [preprocess_pad_singleton c hc]
        simp only [List.cons_append, List.nil_append]
        rw [wsplit_cons_ws ' ' _ space_ws,
            wsplit_cons_not_ws c _ (isPad_not_ws _ hc),
            takeWhile_ws_head ' ' _ space_ws, dropWhile_ws_head ' ' _ space_ws,
            wsplit_cons_ws ' ' _ space_ws, wsplit_cons_ws ' ' _ space_ws]
        rw [ih hts]
      · have hnopad : ∀ c ∈ t, isPad c = false := by
          intro c hc
          cases hb : isPad c
          · rfl
          · exact absurd ⟨c, htpad c hc hb, hb⟩ hp
        rw [preprocess_clean t htws hnopad]
        rw [wsplit_append_ws t ' ' _ htne htws space_ws]
        rw [ih hts]

theorem map_data_map_mk (ts : List (List Char)) :
    (ts.map String.mk).map String.data = ts := by
  rw [List.map_map]
  have h : String.data ∘ String.mk = id := rfl
  rw [h, List.map_id]

/-- C7: retokenizing the space-joined token stream reproduces the token
stream: `tokenize (joinWithSpace (tokenize text)) = tokenize text` for every
text. -/
theorem tokenize_idempotent (s : String) :
    tokenize (joinWithSpace (tokenize s)) = tokenize s := by
  by_cases hs : s.data = []
  · simp only [tokenize, if_pos hs]
    simp [joinWithSpace, joinSp]
  · simp only [tokenize, if_neg hs]
    have hdata : (joinWithSpace ((wsplit (preprocess s.data)).map String.mk)).data
        = joinSp (wsplit (preprocess s.data)) := by
      show (String.mk (joinSp (((wsplit (preprocess s.data)).map String.mk).map String.data))).data
          = joinSp (wsplit (preprocess s.data))
      rw [map_data_map_mk]
    rw [hdata]
    cases hts : wsplit (preprocess s.data) with
    | nil => simp [joinSp, preprocess_nil, wsplit_nil]
    | cons t rest =>
      have hgood : ∀ u ∈ t :: rest, u ≠ [] ∧ (∀ c ∈ u, isWs c = false) ∧
          (∀ c ∈ u, isPad c = true → u = [c]) := by
        intro u hu
        rw [← hts] at hu
        obtain ⟨h1, h2⟩ := wsplit_good (preprocess s.data) u hu
        refine ⟨h1, h2, ?_⟩
        exact wsplit_pre_pads s.data [] (fun c hc => absurd hc (List.not_mem_nil c))
          u (by simpa using hu)
      have htne : t ≠ [] := (hgood t (List.mem_cons_self t rest)).1
      rw [if_neg (joinSp_ne_nil t rest htne)]
      rw [wsplit_pre_join (t :: rest) hgood]
